import Mathlib

/-!
Verification of the jmfinder transaction decoder, classifier and result
merger against its natural-language specification.

The Lean definitions below are a shallow embedding of `src/jmfinder.py`:
byte buffers are `List Nat` (each element a byte value), Python slices
become `List.drop`/`List.take`, exceptions become `Option`, and the
per-transaction speculative slice-width retry loop of `main` is modelled
explicitly by `parse_retry_go`.
-/

namespace Jmfinder

/-! ## Primitive decoders (`decode_uint32`, `decode_uint64`, `decode_varint`) -/

/-- Little-endian interpretation of a byte list (least significant byte first),
as produced by `struct.unpack` with formats `<H`, `<I`, `<Q`. -/
def leNat (l : List Nat) : Nat :=
  l.foldr (fun b acc => b + 256 * acc) 0

/-- Model of `decode_uint32`: fails (`ValueError`) unless given exactly 4 bytes. -/
def decode_uint32 (data : List Nat) : Option Nat :=
  if data.length = 4 then some (leNat data) else none

/-- Model of `decode_uint64`: fails (`ValueError`) unless given exactly 8 bytes. -/
def decode_uint64 (data : List Nat) : Option Nat :=
  if data.length = 8 then some (leNat data) else none

/-- Model of `decode_varint`.  The first byte is a size selector: values
below 253 encode directly, the sentinels 253/254/255 read the following
2/4/8 little-endian bytes.  Failure (`IndexError` on empty input,
`struct.error` when too few bytes remain, the dead `size > 255` guard)
becomes `none`. -/
def decode_varint : List Nat → Option (Nat × Nat)
  | [] => none
  | b :: rest =>
    if 255 < b then none
    else if b < 253 then some (b, 1)
    else if b = 253 then
      if (rest.take 2).length = 2 then some (leNat (rest.take 2), 3) else none
    else if b = 254 then
      if (rest.take 4).length = 4 then some (leNat (rest.take 4), 5) else none
    else
      if (rest.take 8).length = 8 then some (leNat (rest.take 8), 9) else none

/-! ## Pattern classifier (`is_jm`) -/

def MIN_PARTICIPANTS : Nat := 3

def MIN_CJ_AMOUNT : Nat := 75000

/-- The `assumed_cj_outs` computation of `is_jm`: `n_out // 2`, plus one when
`n_out` is odd. -/
def ceilHalf (n_out : Nat) : Nat :=
  n_out / 2 + (if n_out % 2 = 1 then 1 else 0)

/-- The distinct values of a list in order of first occurrence: the key
order of Python's `Counter` dictionary (insertion order). -/
def distinctKeys (l : List Nat) : List Nat :=
  l.foldl (fun acc v => if v ∈ acc then acc else acc ++ [v]) []

/-- Model of `Counter(values).most_common(1)[0]`: the pair of the value with
the greatest multiplicity and that multiplicity, ties resolved in favour of
the value first inserted into the counter (`heapq.nlargest` is stable).
`none` models the `IndexError` raised on an empty counter. -/
def mostCommon1 (values : List Nat) : Option (Nat × Nat) :=
  match distinctKeys values with
  | [] => none
  | k :: ks =>
    some (ks.foldl
      (fun best v => if best.2 < values.count v then (v, values.count v) else best)
      (k, values.count k))

/-- Model of `is_jm`.  Returns `none` where the source would raise
(`most_common(1)[0]` on an empty list of output values). -/
def is_jm (n_in n_out : Nat) (values : List Nat) : Option (Nat × Nat) :=
  let assumed_cj_outs := ceilHalf n_out
  if assumed_cj_outs < MIN_PARTICIPANTS then some (0, 0)
  else if n_in < assumed_cj_outs then some (0, 0)
  else
    match mostCommon1 values with
    | none => none
    | some (most_common_value, equal_outs) =>
      if most_common_value < MIN_CJ_AMOUNT then some (0, 0)
      else if equal_outs ≠ assumed_cj_outs then some (0, 0)
      else some (most_common_value, equal_outs)

/-! ### Lemmas about `mostCommon1` -/

theorem mem_distinctKeys_aux (l : List Nat) (acc : List Nat) (v : Nat) :
    v ∈ l.foldl (fun acc v => if v ∈ acc then acc else acc ++ [v]) acc ↔
      v ∈ acc ∨ v ∈ l := by
  induction l generalizing acc with
  | nil => simp
  | cons x xs ih =>
    simp only [List.foldl_cons]
    by_cases hx : x ∈ acc
    · rw [if_pos hx, ih]
      constructor
      · rintro (h | h)
        · exact Or.inl h
        · exact Or.inr (List.mem_cons_of_mem _ h)
      · rintro (h | h)
        · exact Or.inl h
        · rcases List.mem_cons.mp h with rfl | h
          · exact Or.inl hx
          · exact Or.inr h
    · rw [if_neg hx, ih]
      simp only [List.mem_append, List.mem_singleton, List.mem_cons]
      tauto

theorem mem_distinctKeys (l : List Nat) (v : Nat) :
    v ∈ distinctKeys l ↔ v ∈ l := by
  unfold distinctKeys
  rw [mem_distinctKeys_aux]
  simp

theorem mostCommon1_isSome {values : List Nat} (h : values ≠ []) :
    (mostCommon1 values).isSome := by
  unfold mostCommon1
  cases hd : distinctKeys values with
  | nil =>
    exfalso
    cases values with
    | nil => exact h rfl
    | cons x xs =>
      have : x ∈ distinctKeys (x :: xs) := (mem_distinctKeys _ _).mpr (by simp)
      rw [hd] at this
      simp at this
  | cons k ks => simp

/-- The `mostCommon1` fold keeps an element of the key list (or the seed) with
its exact count, and dominates the counts of every key seen so far. -/
theorem mostCommon1_fold_spec (values : List Nat) (ks : List Nat) (seed : Nat × Nat)
    (hseed : seed.2 = values.count seed.1)
    (res : Nat × Nat)
    (hres : res = ks.foldl
      (fun best v => if best.2 < values.count v then (v, values.count v) else best) seed) :
    res.2 = values.count res.1 ∧
      (res = seed ∨ res.1 ∈ ks) ∧
      seed.2 ≤ res.2 ∧ ∀ u ∈ ks, values.count u ≤ res.2 := by
  induction ks generalizing seed with
  | nil =>
    subst hres
    exact ⟨hseed, Or.inl rfl, le_refl _, by simp⟩
  | cons k ks ih =>
    simp only [List.foldl_cons] at hres
    by_cases hlt : seed.2 < values.count k
    · rw [if_pos hlt] at hres
      obtain ⟨h1, h2, h3, h4⟩ := ih (k, values.count k) rfl hres
      refine ⟨h1, ?_, le_of_lt (lt_of_lt_of_le hlt h3), ?_⟩
      · rcases h2 with h2 | h2
        · exact Or.inr (by rw [h2]; simp)
        · exact Or.inr (List.mem_cons_of_mem _ h2)
      · intro u hu
        rcases List.mem_cons.mp hu with rfl | hu
        · exact h3
        · exact h4 u hu
    · rw [if_neg hlt] at hres
      obtain ⟨h1, h2, h3, h4⟩ := ih seed hseed hres
      refine ⟨h1, ?_, h3, ?_⟩
      · rcases h2 with h2 | h2
        · exact Or.inl h2
        · exact Or.inr (List.mem_cons_of_mem _ h2)
      · intro u hu
        rcases List.mem_cons.mp hu with rfl | hu
        · exact le_trans (le_of_not_lt hlt) h3
        · exact h4 u hu

/-- For a non-empty list, `mostCommon1` returns a value occurring in the list
together with its multiplicity, and no value in the list has a larger
multiplicity. -/
theorem mostCommon1_spec {values : List Nat} (h : values ≠ []) :
    ∃ v f, mostCommon1 values = some (v, f) ∧
      v ∈ values ∧ f = values.count v ∧ ∀ u ∈ values, values.count u ≤ f := by
  have hsome := mostCommon1_isSome h
  unfold mostCommon1 at hsome ⊢
  cases hd : distinctKeys values with
  | nil => rw [hd] at hsome; simp at hsome
  | cons k ks =>
    set res := ks.foldl
      (fun best v => if best.2 < values.count v then (v, values.count v) else best)
      (k, values.count k) with hres
    obtain ⟨h1, h2, h3, h4⟩ :=
      mostCommon1_fold_spec values ks (k, values.count k) rfl res hres
    refine ⟨res.1, res.2, rfl, ?_, h1, ?_⟩
    · have : res.1 ∈ distinctKeys values := by
        rw [hd]
        rcases h2 with h2 | h2
        · rw [h2]; simp
        · exact List.mem_cons_of_mem _ h2
      exact (mem_distinctKeys _ _).mp this
    · intro u hu
      have : u ∈ distinctKeys values := (mem_distinctKeys _ _).mpr hu
      rw [hd] at this
      rcases List.mem_cons.mp this with rfl | hmem
      · exact h3
      · exact h4 u hmem

/-- Helper: the value of `is_jm` once the most-common computation is known. -/
theorem is_jm_eq {values : List Nat} {v f : Nat} (n_in n_out : Nat)
    (hmc : mostCommon1 values = some (v, f)) :
    is_jm n_in n_out values =
      if f = ceilHalf n_out ∧ 3 ≤ ceilHalf n_out ∧ ceilHalf n_out ≤ n_in ∧ 75000 ≤ v
      then some (v, f) else some (0, 0) := by
  unfold is_jm MIN_PARTICIPANTS MIN_CJ_AMOUNT
  rw [hmc]
  by_cases h1 : ceilHalf n_out < 3
  · rw [if_pos h1, if_neg (by omega)]
  · rw [if_neg h1]
    by_cases h2 : n_in < ceilHalf n_out
    · rw [if_pos h2, if_neg (by omega)]
    · rw [if_neg h2]
      show (if v < 75000 then some (0, 0)
            else if f ≠ ceilHalf n_out then some (0, 0) else some (v, f)) = _
      by_cases h3 : v < 75000
      · rw [if_pos h3, if_neg (by omega)]
      · rw [if_neg h3]
        by_cases h4 : f ≠ ceilHalf n_out
        · rw [if_pos h4, if_neg (by omega)]
        · rw [if_neg h4, if_pos (by omega)]

/-- C1: for every triple with non-empty `values`, `is_jm` returns the pair of
the most frequent output value `v` and its frequency `f` exactly when
`f = ⌈n_out/2⌉`, `⌈n_out/2⌉ ≥ 3`, `n_in ≥ ⌈n_out/2⌉` and `v ≥ 75000`; if any
condition fails it returns `(0, 0)`, and the result is `(0, 0)` iff the
transaction does not match. -/
theorem is_jm_characterization (n_in n_out : Nat) (values : List Nat)
    (h : values ≠ []) :
    ∃ v f, mostCommon1 values = some (v, f)
      ∧ v ∈ values ∧ f = values.count v ∧ (∀ u ∈ values, values.count u ≤ f)
      ∧ ceilHalf n_out = (n_out + 1) / 2
      ∧ is_jm n_in n_out values =
          some (if f = ceilHalf n_out ∧ 3 ≤ ceilHalf n_out
                  ∧ ceilHalf n_out ≤ n_in ∧ 75000 ≤ v
                then (v, f) else (0, 0))
      ∧ (is_jm n_in n_out values = some (0, 0) ↔
          ¬ (f = ceilHalf n_out ∧ 3 ≤ ceilHalf n_out
              ∧ ceilHalf n_out ≤ n_in ∧ 75000 ≤ v)) := by
  obtain ⟨v, f, hmc, hv, hf, hmax⟩ := mostCommon1_spec h
  have heq := is_jm_eq n_in n_out hmc
  have hceil : ceilHalf n_out = (n_out + 1) / 2 := by
    unfold ceilHalf
    split <;> omega
  refine ⟨v, f, hmc, hv, hf, hmax, hceil, ?_, ?_⟩
  · rw [heq]
    split <;> rfl
  · rw [heq]
    by_cases hp : f = ceilHalf n_out ∧ 3 ≤ ceilHalf n_out
        ∧ ceilHalf n_out ≤ n_in ∧ 75000 ≤ v
    · rw [if_pos hp]
      simp only [Option.some.injEq, Prod.mk.injEq]
      constructor
      · rintro ⟨rfl, rfl⟩
        omega
      · intro hc
        exact absurd hp hc
    · rw [if_neg hp]
      simp [hp]

/-- Witness for C1 at the specification's worked scenario
`n_in = 5`, `n_out = 6`, values `[100000, 100000, 100000, 50, 60, 70]`. -/
theorem is_jm_characterization_witness :
    ([100000, 100000, 100000, 50, 60, 70] : List Nat) ≠ [] ∧
      ∃ v f, mostCommon1 [100000, 100000, 100000, 50, 60, 70] = some (v, f)
        ∧ v ∈ [100000, 100000, 100000, 50, 60, 70]
        ∧ f = List.count v [100000, 100000, 100000, 50, 60, 70]
        ∧ (∀ u ∈ [100000, 100000, 100000, 50, 60, 70],
            List.count u [100000, 100000, 100000, 50, 60, 70] ≤ f)
        ∧ ceilHalf 6 = (6 + 1) / 2
        ∧ is_jm 5 6 [100000, 100000, 100000, 50, 60, 70] =
            some (if f = ceilHalf 6 ∧ 3 ≤ ceilHalf 6 ∧ ceilHalf 6 ≤ 5 ∧ 75000 ≤ v
                  then (v, f) else (0, 0))
        ∧ (is_jm 5 6 [100000, 100000, 100000, 50, 60, 70] = some (0, 0) ↔
            ¬ (f = ceilHalf 6 ∧ 3 ≤ ceilHalf 6 ∧ ceilHalf 6 ≤ 5 ∧ 75000 ≤ v)) :=
  ⟨by decide, is_jm_characterization 5 6 [100000, 100000, 100000, 50, 60, 70] (by decide)⟩

/-- C10: `is_jm` returns without error on every non-empty values list; it
fails (models an `IndexError`) on the degenerate input `n_in = 3`,
`n_out = 5`, `values = []` even though `⌈5/2⌉ = 3 ≤ n_in`; and under the
decoder's invariant `values.length = n_out` the failing branch is
unreachable. -/
theorem is_jm_totality :
    (∀ n_in n_out (values : List Nat), values ≠ [] → (is_jm n_in n_out values).isSome)
    ∧ is_jm 3 5 [] = none ∧ ceilHalf 5 = 3
    ∧ (∀ n_in n_out (values : List Nat), values.length = n_out →
        (is_jm n_in n_out values).isSome) := by
  have htot : ∀ n_in n_out (values : List Nat), values ≠ [] →
      (is_jm n_in n_out values).isSome := by
    intro n_in n_out values hne
    obtain ⟨v, f, hmc, -⟩ := mostCommon1_spec hne
    rw [is_jm_eq n_in n_out hmc]
    split <;> rfl
  refine ⟨htot, by decide, by decide, ?_⟩
  intro n_in n_out values hlen
  cases values with
  | nil =>
    have h0 : n_out = 0 := by simpa using hlen.symm
    subst h0
    simp [is_jm, ceilHalf, MIN_PARTICIPANTS]
  | cons x xs => exact htot _ _ _ (by simp)

/-- Witness for C10's universally quantified parts at a concrete input. -/
theorem is_jm_totality_witness :
    (([5] : List Nat) ≠ [] ∧ (is_jm 1 1 [5]).isSome)
    ∧ (([7] : List Nat).length = 1 ∧ (is_jm 2 1 [7]).isSome) :=
  ⟨⟨by decide, is_jm_totality.1 1 1 [5] (by decide)⟩,
   ⟨by decide, is_jm_totality.2.2.2 2 1 [7] (by decide)⟩⟩

/-- C8: `decode_varint` returns `(b, 1)` when the first byte `b` is at most
252, reads the following 2, 4 or 8 little-endian bytes (consuming 3, 5 or 9
bytes in total) when `b` is 253, 254 or 255, and fails when fewer bytes
remain than the selector requires, including on the empty input. -/
theorem decode_varint_characterization (b : Nat) (rest : List Nat) :
    decode_varint [] = none
    ∧ (b ≤ 252 → decode_varint (b :: rest) = some (b, 1))
    ∧ (decode_varint (253 :: rest) =
        if 2 ≤ rest.length then some (leNat (rest.take 2), 3) else none)
    ∧ (decode_varint (254 :: rest) =
        if 4 ≤ rest.length then some (leNat (rest.take 4), 5) else none)
    ∧ (decode_varint (255 :: rest) =
        if 8 ≤ rest.length then some (leNat (rest.take 8), 9) else none) := by
  refine ⟨rfl, ?_, ?_, ?_, ?_⟩
  · intro hb
    simp only [decode_varint]
    rw [if_neg (by omega), if_pos (by omega)]
  all_goals
    simp only [decode_varint, List.length_take]
    norm_num

/-- Witness for C8 at concrete byte sequences. -/
theorem decode_varint_characterization_witness :
    (7 : Nat) ≤ 252 ∧ decode_varint [7, 9, 9] = some (7, 1) :=
  ⟨by decide, ((decode_varint_characterization 7 [9, 9]).2.1 (by decide))⟩

/-! ## Result store merging (`main`, lines 450-458)

The store is a list of lines; a line is a `List Char`.  The source computes
`sorted(set(lines), key=lambda x: x.split(',')[1])`: deduplication by full
line equality, then a stable sort whose key is the *string* between the
first and second comma, compared lexicographically by code point. -/

/-- Model of Python's `str.split(',')`. -/
def splitComma : List Char → List (List Char)
  | [] => [[]]
  | c :: rest =>
    match splitComma rest with
    | [] => [[]]
    | g :: gs => if c = ',' then [] :: g :: gs else (c :: g) :: gs

/-- Python string `<=`: lexicographic comparison of code points, with a
proper prefix ordered first. -/
def charListLe : List Char → List Char → Bool
  | [], _ => true
  | _ :: _, [] => false
  | a :: as, b :: bs =>
    if a.toNat < b.toNat then true
    else if b.toNat < a.toNat then false
    else charListLe as bs

/-- The sort key `x.split(',')[1]` of a store line (the height field as a
string). -/
def lineKey (l : List Char) : List Char := (splitComma l).getD 1 []

/-- The comparison used by `sorted(..., key=lambda x: x.split(',')[1])`. -/
def lineLe (a b : List Char) : Prop := charListLe (lineKey a) (lineKey b) = true

instance : DecidableRel lineLe := fun a b => by unfold lineLe; infer_instance

/-- Deduplication keeping the first occurrence of each line (a deterministic
model of `set(lines)` followed by a stable sort). -/
def dedupF : List (List Char) → List (List Char)
  | [] => []
  | x :: xs => x :: (dedupF xs).filter (fun y => y ≠ x)

/-- Model of the read-merge-write of `main`: `sorted(set(lines), key=...)`
over the previously stored lines plus the freshly found result lines. -/
def mergeStore (store results : List (List Char)) : List (List Char) :=
  List.insertionSort lineLe (dedupF (store ++ results))

theorem charListLe_total (a b : List Char) :
    charListLe a b = true ∨ charListLe b a = true := by
  induction a generalizing b with
  | nil => exact Or.inl rfl
  | cons x xs ih =>
    cases b with
    | nil => exact Or.inr rfl
    | cons y ys =>
      simp only [charListLe]
      by_cases h1 : x.toNat < y.toNat
      · exact Or.inl (by rw [if_pos h1])
      · by_cases h2 : y.toNat < x.toNat
        · exact Or.inr (by rw [if_pos h2])
        · rw [if_neg h1, if_neg h2, if_neg h2, if_neg h1]
          exact ih ys

theorem charListLe_trans {a b c : List Char}
    (hab : charListLe a b = true) (hbc : charListLe b c = true) :
    charListLe a c = true := by
  induction a generalizing b c with
  | nil => rfl
  | cons x xs ih =>
    cases b with
    | nil => simp [charListLe] at hab
    | cons y ys =>
      cases c with
      | nil => simp [charListLe] at hbc
      | cons z zs =>
        simp only [charListLe] at hab hbc ⊢
        by_cases h1 : x.toNat < y.toNat
        · by_cases h2 : y.toNat < z.toNat
          · rw [if_pos (by omega)]
          · rw [if_neg h2] at hbc
            by_cases h3 : z.toNat < y.toNat
            · rw [if_pos h3] at hbc; exact absurd hbc (by simp)
            · rw [if_pos (by omega)]
        · rw [if_neg h1] at hab
          by_cases h2 : y.toNat < x.toNat
          · rw [if_pos h2] at hab; exact absurd hab (by simp)
          · rw [if_neg h2] at hab
            by_cases h3 : y.toNat < z.toNat
            · rw [if_pos (by omega)]
            · rw [if_neg h3] at hbc
              by_cases h4 : z.toNat < y.toNat
              · rw [if_pos h4] at hbc; exact absurd hbc (by simp)
              · rw [if_neg h4] at hbc
                rw [if_neg (by omega), if_neg (by omega)]
                exact ih hab hbc

instance : IsTotal (List Char) lineLe :=
  ⟨fun a b => charListLe_total (lineKey a) (lineKey b)⟩

instance : IsTrans (List Char) lineLe :=
  ⟨fun _ _ _ hab hbc => charListLe_trans hab hbc⟩

theorem mem_dedupF {y : List Char} {l : List (List Char)} :
    y ∈ dedupF l ↔ y ∈ l := by
  induction l with
  | nil => simp [dedupF]
  | cons x xs ih =>
    simp only [dedupF, List.mem_cons, List.mem_filter, ih]
    constructor
    · rintro (rfl | ⟨h, -⟩)
      · exact Or.inl rfl
      · exact Or.inr h
    · rintro (rfl | h)
      · exact Or.inl rfl
      · by_cases hxy : y = x
        · exact Or.inl hxy
        · exact Or.inr ⟨h, by simp [hxy]⟩

theorem nodup_dedupF (l : List (List Char)) : (dedupF l).Nodup := by
  induction l with
  | nil => simp [dedupF]
  | cons x xs ih =>
    simp only [dedupF]
    refine List.Nodup.cons ?_ (ih.filter _)
    intro hx
    have := (List.mem_filter.mp hx).2
    simp at this

theorem dedupF_eq_self {l : List (List Char)} (h : l.Nodup) : dedupF l = l := by
  induction l with
  | nil => rfl
  | cons x xs ih =>
    simp only [dedupF]
    rw [ih (List.Nodup.of_cons h)]
    congr 1
    rw [List.filter_eq_self]
    intro a ha
    have : x ∉ xs := (List.nodup_cons.mp h).1
    simp only [ne_eq, decide_eq_true_eq]
    intro heq
    exact this (heq ▸ ha)

theorem dedupF_append (l1 l2 : List (List Char)) :
    dedupF (l1 ++ l2) = dedupF l1 ++ (dedupF l2).filter (fun y => ¬ y ∈ l1) := by
  induction l1 with
  | nil =>
    have h0 : dedupF ([] : List (List Char)) = [] := rfl
    rw [List.nil_append, h0, List.nil_append]
    symm
    rw [List.filter_eq_self]
    simp
  | cons x xs ih =>
    have h1 : dedupF (x :: xs ++ l2) =
        x :: (dedupF (xs ++ l2)).filter (fun y => y ≠ x) := rfl
    have h2 : dedupF (x :: xs) = x :: (dedupF xs).filter (fun y => y ≠ x) := rfl
    rw [h1, ih, List.filter_append, List.filter_filter, h2, List.cons_append]
    congr 2
    apply List.filter_congr
    intro a _
    by_cases hx : a = x <;> by_cases hxs : a ∈ xs <;> simp [hx, hxs]

theorem dedupF_append_of_subset {l1 l2 : List (List Char)}
    (h : ∀ x ∈ l2, x ∈ l1) : dedupF (l1 ++ l2) = dedupF l1 := by
  rw [dedupF_append]
  have : (dedupF l2).filter (fun y => ¬ y ∈ l1) = [] := by
    rw [List.filter_eq_nil_iff]
    intro a ha
    simp [h a (mem_dedupF.mp ha)]
  rw [this, List.append_nil]

/-- Decimal reading of a height field, used to state ordering properties of
the store. -/
def decCharsToNat (l : List Char) : Nat :=
  l.foldl (fun acc c => acc * 10 + (c.toNat - 48)) 0

/-- The block height recorded on a store line (`identifier,height,index`). -/
def lineHeight (l : List Char) : Nat := decCharsToNat (lineKey l)

/-- C2: merging freshly found records into the persisted store deduplicates
by full record equality, and merging records already present leaves the set
of records unchanged; the merge is idempotent, so repeating it any number of
times yields an identical store. -/
theorem mergeStore_dedup_idempotent (store results : List (List Char))
    (h : ∀ r ∈ results, r ∈ store) :
    (∀ l, l ∈ mergeStore store results ↔ l ∈ store)
    ∧ (mergeStore store results).Nodup
    ∧ mergeStore (mergeStore store results) results = mergeStore store results := by
  have hmem : ∀ l, l ∈ mergeStore store results ↔ l ∈ store := by
    intro l
    unfold mergeStore
    rw [List.mem_insertionSort, mem_dedupF, List.mem_append]
    constructor
    · rintro (hl | hl)
      · exact hl
      · exact h l hl
    · exact Or.inl
  have hnodup : (mergeStore store results).Nodup :=
    (List.perm_insertionSort lineLe _).nodup_iff.mpr (nodup_dedupF _)
  refine ⟨hmem, hnodup, ?_⟩
  have hsub : ∀ r ∈ results, r ∈ mergeStore store results :=
    fun r hr => (hmem r).mpr (h r hr)
  show List.insertionSort lineLe (dedupF (mergeStore store results ++ results)) =
    mergeStore store results
  rw [dedupF_append_of_subset hsub, dedupF_eq_self hnodup]
  exact List.Sorted.insertionSort_eq (List.sorted_insertionSort lineLe _)

/-- Witness for C2 at the specification's scenario: merging the record
`abc123,700000,4` into a store already holding it and `def456,699999,0`. -/
theorem mergeStore_dedup_idempotent_witness :
    (∀ r ∈ [("abc123,700000,4").data],
        r ∈ [("abc123,700000,4").data, ("def456,699999,0").data])
    ∧ ((∀ l, l ∈ mergeStore [("abc123,700000,4").data, ("def456,699999,0").data]
            [("abc123,700000,4").data] ↔
          l ∈ [("abc123,700000,4").data, ("def456,699999,0").data])
      ∧ (mergeStore [("abc123,700000,4").data, ("def456,699999,0").data]
          [("abc123,700000,4").data]).Nodup
      ∧ mergeStore
          (mergeStore [("abc123,700000,4").data, ("def456,699999,0").data]
            [("abc123,700000,4").data])
          [("abc123,700000,4").data] =
        mergeStore [("abc123,700000,4").data, ("def456,699999,0").data]
          [("abc123,700000,4").data]) :=
  ⟨by decide,
   mergeStore_dedup_idempotent
     [("abc123,700000,4").data, ("def456,699999,0").data]
     [("abc123,700000,4").data] (by decide)⟩

/-- C3 is a code bug: the store is sorted by the height *field as a string*
(`key=lambda x: x.split(',')[1]` with Python string comparison), so a store
holding records at heights 9 and 10 is written with the height-10 line first
("10" < "9" lexicographically), not in ascending height order. -/
theorem mergeStore_string_sort_not_height_sort :
    mergeStore [("aaa,9,0").data, ("bbb,10,0").data] [] =
      [("bbb,10,0").data, ("aaa,9,0").data]
    ∧ lineHeight (("bbb,10,0").data) = 10
    ∧ lineHeight (("aaa,9,0").data) = 9 := by decide

/-! ## Transaction decoder (`main`, lines 325-441)

One decode attempt operates on the Python slice
`tx = txs_data[block_offset : block_offset + 1024 * 2**j]`, which becomes
`(txs_data.drop block_offset).take width`.  The attempt body is split into
the input/output/witness loops exactly as in the source.  A failed attempt
(`except Exception: continue`) is `none`; the `tx_size` component records the
value the attempt left in the Python variable `tx_size` when it reached the
assignment `tx_size = tx_offset + 4` before failing, since the outer loop
advances `block_offset` by that value even after 20 failed attempts. -/

/-- The structured result of one successful transaction decode. -/
structure ParsedTx where
  version : Nat
  locktime : Nat
  is_segwit : Bool
  n_in : Nat
  n_out : Nat
  values : List Nat
  offset_before_tx_witnesses : Option Nat
  tx_size : Nat
  txBytes : List Nat
deriving DecidableEq, Repr

/-- The input-parsing loop: each input is 36 fixed bytes, a script-length
varint, the script bytes and a 4-byte sequence number; only the offset
advances. -/
def parse_inputs (tx : List Nat) : Nat → Nat → Option Nat
  | 0, tx_offset => some tx_offset
  | n + 1, tx_offset =>
    match decode_varint ((tx.drop tx_offset).drop 36) with
    | none => none
    | some (script_length, varint_length) =>
      parse_inputs tx n (tx_offset + 36 + varint_length + script_length + 4)

/-- The output-parsing loop: each output is an 8-byte value, a script-length
varint and the script bytes; the values are accumulated in output order. -/
def parse_outputs (tx : List Nat) : Nat → Nat → List Nat → Option (List Nat × Nat)
  | 0, tx_offset, values => some (values, tx_offset)
  | n + 1, tx_offset, values =>
    match decode_uint64 ((tx.drop tx_offset).take 8) with
    | none => none
    | some value =>
      match decode_varint ((tx.drop tx_offset).drop 8) with
      | none => none
      | some (script_length, varint_size) =>
        parse_outputs tx n (tx_offset + 8 + varint_size + script_length) (values ++ [value])

/-- The witness-stack-item loop of one input. -/
def parse_witness_items (tx : List Nat) : Nat → Nat → Option Nat
  | 0, tx_offset => some tx_offset
  | n + 1, tx_offset =>
    match decode_varint (tx.drop tx_offset) with
    | none => none
    | some (component_length, varint_size) =>
      parse_witness_items tx n (tx_offset + varint_size + component_length)

/-- The witness loop: one stack per input. -/
def parse_witnesses (tx : List Nat) : Nat → Nat → Option Nat
  | 0, tx_offset => some tx_offset
  | n + 1, tx_offset =>
    match decode_varint (tx.drop tx_offset) with
    | none => none
    | some (tx_witnesses_n, varint_size) =>
      match parse_witness_items tx tx_witnesses_n (tx_offset + varint_size) with
      | none => none
      | some tx_offset2 => parse_witnesses tx n tx_offset2

/-- The field parsing from the input-count varint on, at start offset `o0`
(6 when the segwit marker was found, 4 otherwise): input count and inputs,
output count and outputs, witnesses when segwit.  Returns
`(is_segwit, n_in, n_out, values, offset_before_tx_witnesses, tx_offset)`. -/
def parse_fields_rest (tx : List Nat) (is_segwit : Bool) (o0 : Nat) :
    Option (Bool × Nat × Nat × List Nat × Option Nat × Nat) :=
  match decode_varint (tx.drop o0) with
  | none => none
  | some (n_in, varint_size) =>
    match parse_inputs tx n_in (o0 + varint_size) with
    | none => none
    | some o1 =>
      match decode_varint (tx.drop o1) with
      | none => none
      | some (n_out, varint_size2) =>
        match parse_outputs tx n_out (o1 + varint_size2) [] with
        | none => none
        | some (values, o2) =>
          if is_segwit then
            match parse_witnesses tx n_in o2 with
            | none => none
            | some o3 => some (true, n_in, n_out, values, some o2, o3)
          else some (false, n_in, n_out, values, none, o2)

/-- The field-parsing part of one decode attempt, after the version and
locktime reads: the marker peek `tx[4:6] == b'\x00\x01'` decides the segwit
flag and the start offset of the input-count varint. -/
def parse_fields (tx : List Nat) :
    Option (Bool × Nat × Nat × List Nat × Option Nat × Nat) :=
  if (tx.drop 4).take 2 = [0, 1] then parse_fields_rest tx true 6
  else parse_fields_rest tx false 4

/-- One decode attempt on an already-cut slice `tx`.  The first component is
the decoded transaction (or `none` on failure); the second is the value left
in the `tx_size` variable, `some` exactly when the attempt reached the
assignment `tx_size = tx_offset + 4`. -/
def parse_slice (tx : List Nat) : Option ParsedTx × Option Nat :=
  match decode_uint32 (tx.take 4) with
  | none => (none, none)
  | some version =>
    match decode_uint32 (tx.drop (tx.length - 4)) with
    | none => (none, none)
    | some locktime =>
      match parse_fields tx with
      | none => (none, none)
      | some (is_segwit, n_in, n_out, values, obtw, tx_offset) =>
        if tx.length < tx_offset + 4 then (none, some (tx_offset + 4))
        else
          (some ⟨version, locktime, is_segwit, n_in, n_out, values, obtw,
                 tx_offset + 4, tx.take (tx_offset + 4)⟩,
           some (tx_offset + 4))

/-- One decode attempt at slice width `width`, starting at `block_offset`. -/
def parse_attempt (txs_data : List Nat) (block_offset width : Nat) :
    Option ParsedTx × Option Nat :=
  parse_slice ((txs_data.drop block_offset).take width)

/-- The retry loop over slice widths `1024 * 2^j`; `fuel` counts the
remaining widths, `ts` carries the current value of the `tx_size` variable. -/
def parse_retry_go (txs_data : List Nat) (block_offset : Nat) :
    Nat → Nat → Nat → Option ParsedTx × Nat
  | 0, _, ts => (none, ts)
  | fuel + 1, j, ts =>
    match parse_attempt txs_data block_offset (1024 * 2 ^ j) with
    | (some r, _) => (some r, r.tx_size)
    | (none, some t) => parse_retry_go txs_data block_offset fuel (j + 1) t
    | (none, none) => parse_retry_go txs_data block_offset fuel (j + 1) ts

/-- The full per-transaction decode of `main`: slice widths from `1024·2^0`
to `1024·2^19`, first success wins; the second component is the amount by
which `block_offset` advances afterwards (`tx_size`, initially 0). -/
def parse_tx_full (txs_data : List Nat) (block_offset : Nat) : Option ParsedTx × Nat :=
  parse_retry_go txs_data block_offset 20 0 0

/-! ## Identifier and size calculator (`main`, lines 395-418) -/

/-- Model of `double_sha256`, parameterised by the external digest
(`hashlib.sha256`, outside this repository): the digest applied twice. -/
def double_sha256 (sha256 : List Nat → List Nat) (data : List Nat) : List Nat :=
  sha256 (sha256 data)

/-- Lower-case hex digit of a value below 16. -/
def hexDigit (n : Nat) : Char :=
  if n < 10 then Char.ofNat (48 + n) else Char.ofNat (87 + n)

/-- Two-character lower-case hex rendering of one byte. -/
def hexByte (b : Nat) : List Char := [hexDigit (b / 16), hexDigit (b % 16)]

/-- Model of `format_hash`: byte-reverse, then hex-encode (`[::-1].hex()`). -/
def format_hash (hash_ : List Nat) : List Char :=
  hash_.reverse.foldr (fun b acc => hexByte b ++ acc) []

/-- The byte range hashed for the transaction identifier: for a segwit
transaction `tx[:4] + tx[6:offset_before_tx_witnesses] + tx[-4:]` (witness
marker/flag and witness stacks excluded), otherwise the whole transaction. -/
def txid_data (r : ParsedTx) : List Nat :=
  if r.is_segwit then
    r.txBytes.take 4
      ++ (r.txBytes.drop 6).take (r.offset_before_tx_witnesses.getD 0 - 6)
      ++ r.txBytes.drop (r.txBytes.length - 4)
  else r.txBytes

/-- The displayed transaction identifier. -/
def txid_of (sha256 : List Nat → List Nat) (r : ParsedTx) : List Char :=
  format_hash (double_sha256 sha256 (txid_data r))

/-- The witness byte span `tx_size - offset_before_tx_witnesses - 4`. -/
def witness_size (tx_size offset_before_tx_witnesses : Int) : Int :=
  tx_size - offset_before_tx_witnesses - 4

/-- The size without the segwit marker and the witness. -/
def stripped_size (tx_size offset_before_tx_witnesses : Int) : Int :=
  tx_size - (2 + witness_size tx_size offset_before_tx_witnesses)

/-- The transaction weight `stripped_size * 3 + tx_size`. -/
def weight_calc (tx_size offset_before_tx_witnesses : Int) : Int :=
  stripped_size tx_size offset_before_tx_witnesses * 3 + tx_size

/-- Ceiling division by 4 (`ceil(weight / 4)`), as floor division of `w+3`. -/
def ceil_div4 (w : Int) : Int := (w + 3) / 4

/-- The virtual size computed in `main`: the byte length for non-witness
transactions, `ceil(weight / 4)` for witness transactions. -/
def vsize_calc (is_segwit : Bool) (tx_size offset_before_tx_witnesses : Int) : Int :=
  if is_segwit then ceil_div4 (weight_calc tx_size offset_before_tx_witnesses)
  else tx_size

/-- The virtual size of a decoded transaction as `main` computes it. -/
def vsize_of (r : ParsedTx) : Int :=
  vsize_calc r.is_segwit (r.tx_size : Int) ((r.offset_before_tx_witnesses.getD 0 : Nat) : Int)

/-! ## Scan driver and result persistence (`main`, lines 310-458) -/

/-- Decimal rendering of a number, as Python string interpolation does. -/
def natToDecChars (n : Nat) : List Char := Nat.toDigits 10 n

/-- The result line `f'{txid},{height},{i}'`. -/
def render_record (txid : List Char) (height i : Nat) : List Char :=
  txid ++ [','] ++ natToDecChars height ++ [','] ++ natToDecChars i

/-- The per-block loop state: the scan cursor, the number of successfully
processed transactions and the result lines collected so far. -/
structure ScanState where
  block_offset : Nat
  processed : Nat
  results : List (List Char)
deriving DecidableEq, Repr

/-- The transaction loop of one block: `count` transactions remain, `i` is
the in-block index.  A transaction whose every decode attempt failed leaves
`processed` unchanged but still advances the cursor by the final `tx_size`. -/
def scan_txs (sha256 : List Nat → List Nat) (txs_data : List Nat) (height : Nat) :
    Nat → Nat → ScanState → ScanState
  | 0, _, st => st
  | count + 1, i, st =>
    match parse_tx_full txs_data st.block_offset with
    | (none, ts) =>
      scan_txs sha256 txs_data height count (i + 1)
        { st with block_offset := st.block_offset + ts }
    | (some r, ts) =>
      match is_jm r.n_in r.n_out r.values with
      | none =>
        scan_txs sha256 txs_data height count (i + 1)
          { st with block_offset := st.block_offset + ts }
      | some (most_common_value, _) =>
        scan_txs sha256 txs_data height count (i + 1)
          { block_offset := st.block_offset + ts,
            processed := st.processed + 1,
            results := if 0 < most_common_value
              then st.results ++ [render_record (txid_of sha256 r) height i]
              else st.results }

/-- The declared transaction count and final loop state of one block: the
header is skipped (80 bytes), the transaction count varint is decoded and the
transaction loop is run. -/
def block_scan_state (sha256 : List Nat → List Nat) (block : List Nat) (height : Nat) :
    Option (Nat × ScanState) :=
  match decode_varint (block.drop 80) with
  | none => none
  | some (n_txs, block_offset) =>
    some (n_txs, scan_txs sha256 (block.drop 80) height n_txs 0 ⟨block_offset, 0, []⟩)

/-- One block's scan: `none` models the fatal exits (`sys.exit(FAILURE)`)
when the transaction count cannot be decoded or when fewer transactions were
processed than declared. -/
def scan_block (sha256 : List Nat → List Nat) (block : List Nat) (height : Nat) :
    Option (List (List Char)) :=
  match block_scan_state sha256 block height with
  | none => none
  | some (n_txs, st) => if st.processed ≠ n_txs then none else some st.results

/-- The height loop: scan `count` consecutive blocks starting at height `h`;
a fatal block aborts the whole run. -/
def run_scan (sha256 : List Nat → List Nat) (blocks : Nat → List Nat) :
    Nat → Nat → Option (List (List Char))
  | 0, _ => some []
  | count + 1, h =>
    match scan_block sha256 (blocks h) h with
    | none => none
    | some recs =>
      match run_scan sha256 blocks count (h + 1) with
      | none => none
      | some rest => some (recs ++ rest)

/-- End-to-end model of `main`'s effect on the persisted store: on a fatal
run the store file is never touched; on success the collected results are
merged into it. -/
def main_model (sha256 : List Nat → List Nat) (blocks : Nat → List Nat)
    (start_block end_block : Nat) (store : List (List Char)) : List (List Char) :=
  match run_scan sha256 blocks (end_block + 1 - start_block) start_block with
  | none => store
  | some results => mergeStore store results

/-! ## Elimination lemmas for successful decodes -/

theorem decode_uint32_elim {d : List Nat} {v : Nat} (h : decode_uint32 d = some v) :
    d.length = 4 ∧ v = leNat d := by
  unfold decode_uint32 at h
  split at h
  · exact ⟨by assumption, (Option.some.injEq _ _ ▸ h).symm⟩
  · exact absurd h (by simp)

theorem parse_slice_elim {tx : List Nat} {r : ParsedTx} {ts0 : Option Nat}
    (h : parse_slice tx = (some r, ts0)) :
    4 ≤ r.tx_size ∧ r.tx_size ≤ tx.length ∧ r.txBytes = tx.take r.tx_size
    ∧ ts0 = some r.tx_size
    ∧ r.version = leNat (tx.take 4)
    ∧ r.locktime = leNat (tx.drop (tx.length - 4))
    ∧ parse_fields tx =
        some (r.is_segwit, r.n_in, r.n_out, r.values, r.offset_before_tx_witnesses,
          r.tx_size - 4) := by
  unfold parse_slice at h
  cases h1 : decode_uint32 (tx.take 4) with
  | none => rw [h1] at h; simp at h
  | some version =>
    rw [h1] at h
    cases h2 : decode_uint32 (tx.drop (tx.length - 4)) with
    | none => rw [h2] at h; simp at h
    | some locktime =>
      rw [h2] at h
      cases h3 : parse_fields tx with
      | none => rw [h3] at h; simp at h
      | some flds =>
        rw [h3] at h
        obtain ⟨sw, ni, no, vals, obtw, tof⟩ := flds
        dsimp only at h
        by_cases h4 : tx.length < tof + 4
        · rw [if_pos h4] at h
          simp at h
        · rw [if_neg h4] at h
          simp only [Prod.mk.injEq, Option.some.injEq] at h
          obtain ⟨hr, hts⟩ := h
          subst hr
          subst hts
          dsimp only
          exact ⟨by omega, by omega, rfl, rfl, (decode_uint32_elim h1).2,
            (decode_uint32_elim h2).2, by rw [Nat.add_sub_cancel]; try exact h3⟩

theorem parse_retry_go_success {txs_data : List Nat} {block_offset : Nat}
    {r : ParsedTx} {ts' : Nat} :
    ∀ {fuel j ts}, parse_retry_go txs_data block_offset fuel j ts = (some r, ts') →
      ts' = r.tx_size ∧
      ∃ jj, j ≤ jj ∧ jj < j + fuel ∧
        (parse_attempt txs_data block_offset (1024 * 2 ^ jj)).1 = some r := by
  intro fuel
  induction fuel with
  | zero => intro j ts h; simp [parse_retry_go] at h
  | succ f ih =>
    intro j ts h
    rw [parse_retry_go] at h
    cases ha : parse_attempt txs_data block_offset (1024 * 2 ^ j) with
    | mk o t =>
      rw [ha] at h
      cases o with
      | some r0 =>
        simp only [Prod.mk.injEq, Option.some.injEq] at h
        obtain ⟨rfl, rfl⟩ := h
        exact ⟨rfl, j, le_refl j, by omega, by rw [ha]⟩
      | none =>
        cases t with
        | some tv =>
          obtain ⟨h1, jj, h2, h3, h4⟩ := ih h
          exact ⟨h1, jj, by omega, by omega, h4⟩
        | none =>
          obtain ⟨h1, jj, h2, h3, h4⟩ := ih h
          exact ⟨h1, jj, by omega, by omega, h4⟩

/-- A successful `parse_tx_full` comes from a successful attempt at one of
the 20 slice widths, and the cursor advance equals the decoded size. -/
theorem parse_tx_full_success {txs_data : List Nat} {block_offset : Nat}
    {r : ParsedTx} {ts' : Nat}
    (h : parse_tx_full txs_data block_offset = (some r, ts')) :
    ts' = r.tx_size ∧
    ∃ jj, jj < 20 ∧
      parse_slice ((txs_data.drop block_offset).take (1024 * 2 ^ jj)) =
        ((some r : Option ParsedTx), some r.tx_size) := by
  obtain ⟨h1, jj, -, h3, h4⟩ := parse_retry_go_success h
  refine ⟨h1, jj, by omega, ?_⟩
  unfold parse_attempt at h4
  cases hps : parse_slice ((txs_data.drop block_offset).take (1024 * 2 ^ jj)) with
  | mk o t =>
    rw [hps] at h4
    simp only at h4
    subst h4
    obtain ⟨-, -, -, hts, -⟩ := parse_slice_elim hps
    rw [hts]

/-! ## Concrete buffers used to exercise the decoder -/

/-- A 64-byte buffer: a complete 60-byte legacy transaction (locktime bytes
all zero) followed by 4 extra bytes `de ad be ef` belonging to whatever
comes next in the block. -/
def legacyTxPlusJunk : List Nat :=
  [1, 0, 0, 0] ++ [1] ++ List.replicate 32 0 ++ [0, 0, 0, 0] ++ [0]
    ++ [255, 255, 255, 255] ++ [1] ++ [160, 134, 1, 0, 0, 0, 0, 0] ++ [0]
    ++ [0, 0, 0, 0] ++ [222, 173, 190, 239]

/-- The non-witness middle section shared by the two segwit test
transactions: one input (empty script), one output of 100000 units. -/
def segwitBody : List Nat :=
  [1] ++ List.replicate 32 0 ++ [0, 0, 0, 0] ++ [0] ++ [255, 255, 255, 255]
    ++ [1] ++ [160, 134, 1, 0, 0, 0, 0, 0] ++ [0]

/-- A segwit transaction with an empty witness stack for its input. -/
def segwitTxA : List Nat := [1, 0, 0, 0] ++ [0, 1] ++ segwitBody ++ [0] ++ [7, 0, 0, 0]

/-- The same transaction with a one-item witness stack. -/
def segwitTxB : List Nat :=
  [1, 0, 0, 0] ++ [0, 1] ++ segwitBody ++ [1, 1, 171] ++ [7, 0, 0, 0]

/-- A "block" whose header declares one transaction but whose body cannot be
decoded: all 20 decode attempts fail. -/
def badBlock : List Nat := List.replicate 80 0 ++ [1]

/-- C7 is a code bug: the `locktime` reported for a successfully decoded
transaction is read from the last 4 bytes of the speculative 1-KiB slice
(`tx[-4:]` before truncation), not from the last 4 bytes of the consumed
range.  On `legacyTxPlusJunk` the decoded transaction occupies 60 bytes
whose final 4 bytes are zero, yet the reported locktime is the value of the
4 junk bytes that follow it. -/
theorem locktime_read_from_slice_end :
    ∃ r, (parse_tx_full legacyTxPlusJunk 0).1 = some r
      ∧ r.tx_size = 60
      ∧ leNat ((legacyTxPlusJunk.take 60).drop (60 - 4)) = 0
      ∧ r.locktime = 4022250974
      ∧ r.locktime ≠ leNat ((legacyTxPlusJunk.take 60).drop (60 - 4)) := by
  refine ⟨⟨1, 4022250974, false, 1, 1, [100000], none, 60, legacyTxPlusJunk.take 60⟩,
    ?_, ?_, ?_, ?_, ?_⟩ <;> decide

/-- Counterexample to C6 as stated: re-slicing exactly the consumed 60 bytes
of `legacyTxPlusJunk` and decoding again succeeds but produces a *different*
structured transaction — the locktime changes from the junk value to the
true final 4 bytes — so the round-tripped decode is not identical. -/
theorem roundtrip_decode_not_identical :
    ∃ r1 r2, (parse_tx_full legacyTxPlusJunk 0).1 = some r1
      ∧ (parse_tx_full ((legacyTxPlusJunk.drop 0).take r1.tx_size) 0).1 = some r2
      ∧ r1.version = r2.version ∧ r1.is_segwit = r2.is_segwit
      ∧ r1.n_in = r2.n_in ∧ r1.n_out = r2.n_out
      ∧ r1.values = r2.values ∧ r1.tx_size = r2.tx_size
      ∧ r1.locktime ≠ r2.locktime := by
  refine ⟨⟨1, 4022250974, false, 1, 1, [100000], none, 60, legacyTxPlusJunk.take 60⟩,
    ⟨1, 0, false, 1, 1, [100000], none, 60, legacyTxPlusJunk.take 60⟩,
    ?_, ?_, ?_, ?_, ?_, ?_, ?_, ?_, ?_⟩ <;> decide

/-- A transaction decoded with `tx_size` equal to the whole buffer length
occupies exactly that buffer. -/
theorem parse_full_buffer_txBytes {buf : List Nat} {r : ParsedTx}
    (h : (parse_tx_full buf 0).1 = some r) (hs : r.tx_size = buf.length) :
    r.txBytes = buf := by
  rcases hp : parse_tx_full buf 0 with ⟨o, t⟩
  rw [hp] at h
  dsimp only at h
  subst h
  obtain ⟨-, jj, -, hps⟩ := parse_tx_full_success hp
  rw [List.drop_zero] at hps
  obtain ⟨-, hle, hbytes, -⟩ := parse_slice_elim hps
  rw [List.length_take] at hle
  have hw : buf.length ≤ 1024 * 2 ^ jj := by omega
  rw [hbytes, List.take_take, hs]
  have : min buf.length (1024 * 2 ^ jj) = buf.length := by omega
  rw [this, List.take_length]

/-- The three byte slices used by the segwit `txid_data` computation, for a
buffer laid out as version, marker, body, witness, locktime. -/
theorem segwit_concat_slices (V M W L4 : List Nat) (hV : V.length = 4)
    (hL : L4.length = 4) :
    (V ++ [0, 1] ++ M ++ W ++ L4).take 4 = V
    ∧ ((V ++ [0, 1] ++ M ++ W ++ L4).drop 6).take (6 + M.length - 6) = M
    ∧ (V ++ [0, 1] ++ M ++ W ++ L4).drop ((V ++ [0, 1] ++ M ++ W ++ L4).length - 4) =
        L4 := by
  refine ⟨?_, ?_, ?_⟩
  · simp only [List.append_assoc]
    exact List.take_left' hV
  · simp only [List.append_assoc]
    rw [← List.append_assoc V [0, 1]]
    rw [List.drop_left' (by simp [hV])]
    have h6 : 6 + M.length - 6 = M.length := by omega
    rw [h6]
    exact List.take_left' rfl
  · have hlen : (V ++ [0, 1] ++ M ++ W ++ L4).length - 4 =
        (V ++ [0, 1] ++ M ++ W).length := by
      simp only [List.length_append, hL]
      omega
    rw [hlen]
    exact List.drop_left _ _

/-- C4: the transaction identifier hashes the byte range with the witness
marker/flag pair and all witness stacks excluded — `tx[:4]`, the span up to
the witness section, and the final 4 locktime bytes — so two transactions
that differ only in their witness stacks have equal identifiers. -/
theorem txid_excludes_witness (sha256 : List Nat → List Nat)
    (V M W1 W2 L4 : List Nat) (hV : V.length = 4) (hL : L4.length = 4)
    (r1 r2 : ParsedTx)
    (h1 : (parse_tx_full (V ++ [0, 1] ++ M ++ W1 ++ L4) 0).1 = some r1)
    (h2 : (parse_tx_full (V ++ [0, 1] ++ M ++ W2 ++ L4) 0).1 = some r2)
    (hsw1 : r1.is_segwit = true) (hsw2 : r2.is_segwit = true)
    (ho1 : r1.offset_before_tx_witnesses = some (6 + M.length))
    (ho2 : r2.offset_before_tx_witnesses = some (6 + M.length))
    (hs1 : r1.tx_size = (V ++ [0, 1] ++ M ++ W1 ++ L4).length)
    (hs2 : r2.tx_size = (V ++ [0, 1] ++ M ++ W2 ++ L4).length) :
    txid_data r1 = V ++ M ++ L4 ∧ txid_data r2 = V ++ M ++ L4
    ∧ txid_of sha256 r1 = format_hash (double_sha256 sha256 (V ++ M ++ L4))
    ∧ txid_of sha256 r1 = txid_of sha256 r2 := by
  have hb1 : r1.txBytes = V ++ [0, 1] ++ M ++ W1 ++ L4 := parse_full_buffer_txBytes h1 hs1
  have hb2 : r2.txBytes = V ++ [0, 1] ++ M ++ W2 ++ L4 := parse_full_buffer_txBytes h2 hs2
  obtain ⟨k1, k2, k3⟩ := segwit_concat_slices V M W1 L4 hV hL
  obtain ⟨k4, k5, k6⟩ := segwit_concat_slices V M W2 L4 hV hL
  have ht1 : txid_data r1 = V ++ M ++ L4 := by
    unfold txid_data
    rw [hsw1, if_pos rfl, ho1, hb1]
    simp only [Option.getD_some]
    rw [k1, k2, k3]
  have ht2 : txid_data r2 = V ++ M ++ L4 := by
    unfold txid_data
    rw [hsw2, if_pos rfl, ho2, hb2]
    simp only [Option.getD_some]
    rw [k4, k5, k6]
  refine ⟨ht1, ht2, ?_, ?_⟩
  · unfold txid_of
    rw [ht1]
  · unfold txid_of
    rw [ht1, ht2]

/-- Witness for C4: the two concrete segwit transactions `segwitTxA` and
`segwitTxB`, identical except for their witness stacks. -/
theorem txid_excludes_witness_witness :
    (([1, 0, 0, 0] : List Nat).length = 4 ∧ ([7, 0, 0, 0] : List Nat).length = 4
      ∧ (parse_tx_full ([1, 0, 0, 0] ++ [0, 1] ++ segwitBody ++ [0] ++ [7, 0, 0, 0]) 0).1 =
          some ⟨1, 7, true, 1, 1, [100000], some 58, 63, segwitTxA⟩
      ∧ (parse_tx_full ([1, 0, 0, 0] ++ [0, 1] ++ segwitBody ++ [1, 1, 171] ++ [7, 0, 0, 0]) 0).1 =
          some ⟨1, 7, true, 1, 1, [100000], some 58, 65, segwitTxB⟩)
    ∧ txid_of (fun l => l) ⟨1, 7, true, 1, 1, [100000], some 58, 63, segwitTxA⟩ =
        txid_of (fun l => l) ⟨1, 7, true, 1, 1, [100000], some 58, 65, segwitTxB⟩ :=
  ⟨⟨by decide, by decide, by decide, by decide⟩,
   (txid_excludes_witness (fun l => l) [1, 0, 0, 0] segwitBody [0] [1, 1, 171]
      [7, 0, 0, 0] (by decide) (by decide)
      ⟨1, 7, true, 1, 1, [100000], some 58, 63, segwitTxA⟩
      ⟨1, 7, true, 1, 1, [100000], some 58, 65, segwitTxB⟩
      (by decide) (by decide) (by decide) (by decide)
      (by decide) (by decide) (by decide) (by decide)).2.2.2⟩

/-- C5 (amended): the virtual size of a non-witness transaction is its byte
length; for witness transactions the witness span, stripped size and weight
follow the source formulas, the virtual size is `⌈weight/4⌉`, and the sizes
satisfy `stripped + 2 + witness = total`.  The amended worked example:
`stripped_size = 200`, `witness_size = 100` forces `total = 302`,
`weight = 902`, `vsize = 226`. -/
theorem vsize_formulas (tx_size obtw : Int) :
    vsize_calc false tx_size obtw = tx_size
    ∧ witness_size tx_size obtw = tx_size - obtw - 4
    ∧ stripped_size tx_size obtw = tx_size - (2 + witness_size tx_size obtw)
    ∧ weight_calc tx_size obtw = stripped_size tx_size obtw * 3 + tx_size
    ∧ weight_calc tx_size obtw ≤ 4 * vsize_calc true tx_size obtw
    ∧ 4 * vsize_calc true tx_size obtw < weight_calc tx_size obtw + 4
    ∧ stripped_size tx_size obtw + 2 + witness_size tx_size obtw = tx_size
    ∧ vsize_calc false 250 0 = 250
    ∧ witness_size 302 198 = 100 ∧ stripped_size 302 198 = 200
    ∧ weight_calc 302 198 = 902 ∧ vsize_calc true 302 198 = 226 := by
  refine ⟨rfl, rfl, rfl, rfl, ?_, ?_, ?_, by decide, by decide, by decide,
    by decide, by decide⟩
  · show weight_calc tx_size obtw ≤ 4 * ceil_div4 (weight_calc tx_size obtw)
    unfold ceil_div4
    omega
  · show 4 * ceil_div4 (weight_calc tx_size obtw) < weight_calc tx_size obtw + 4
    unfold ceil_div4
    omega
  · unfold stripped_size witness_size
    ring

/-- Counterexample to C5's worked example as stated: under the code's
formulas a witness transaction with `stripped_size = 200` and
`witness_size = 100` has total length 302 and weight 902 (vsize still 226);
conversely a total of 304 with `witness_size = 100` forces
`stripped_size = 202`, not 200. -/
theorem vsize_worked_example_false :
    witness_size 302 198 = 100 ∧ stripped_size 302 198 = 200
    ∧ weight_calc 302 198 = 902 ∧ weight_calc 302 198 ≠ 904
    ∧ vsize_calc true 302 198 = 226
    ∧ witness_size 304 200 = 100 ∧ stripped_size 304 200 = 202
    ∧ stripped_size 304 200 ≠ 200
    ∧ weight_calc 304 200 = 910 ∧ vsize_calc true 304 200 = 228 := by
  decide

/-- C9: whenever some block in the requested range processes fewer (or more)
transactions than its declared count, the whole run fails before the result
store is rewritten, leaving the previously persisted lines unchanged. -/
theorem incomplete_block_leaves_store_unchanged (sha256 : List Nat → List Nat)
    (blocks : Nat → List Nat) (start_block end_block h : Nat)
    (store : List (List Char)) (n_txs : Nat) (st : ScanState)
    (hlo : start_block ≤ h) (hhi : h ≤ end_block)
    (hscan : block_scan_state sha256 (blocks h) h = some (n_txs, st))
    (hmismatch : st.processed ≠ n_txs) :
    main_model sha256 blocks start_block end_block store = store := by
  have hblock : scan_block sha256 (blocks h) h = none := by
    unfold scan_block
    rw [hscan]
    simp [hmismatch]
  have hrun : ∀ count s, s ≤ h → h < s + count →
      run_scan sha256 blocks count s = none := by
    intro count
    induction count with
    | zero => intro s h1 h2; omega
    | succ c ih =>
      intro s h1 h2
      by_cases hs : s = h
      · subst hs
        unfold run_scan
        rw [hblock]
      · have hnone : run_scan sha256 blocks c (s + 1) = none :=
          ih (s + 1) (by omega) (by omega)
        unfold run_scan
        rw [hnone]
        cases scan_block sha256 (blocks s) s <;> rfl
  unfold main_model
  rw [hrun (end_block + 1 - start_block) start_block (by omega) (by omega)]

/-- Witness for C9: a one-block range whose block declares one transaction
but decodes none; the store stays empty. -/
theorem incomplete_block_leaves_store_unchanged_witness :
    ((0 : Nat) ≤ 0 ∧ (0 : Nat) ≤ 0
      ∧ block_scan_state (fun l => l) ((fun _ => badBlock) 0) 0 = some (1, ⟨1, 0, []⟩)
      ∧ (ScanState.mk 1 0 []).processed ≠ 1)
    ∧ main_model (fun l => l) (fun _ => badBlock) 0 0 [] = [] :=
  ⟨⟨le_refl 0, le_refl 0, by decide, by decide⟩,
   incomplete_block_leaves_store_unchanged (fun l => l) (fun _ => badBlock) 0 0 0 [] 1
     ⟨1, 0, []⟩ (le_refl 0) (le_refl 0) (by decide) (by decide)⟩

/-! ## Prefix stability of the decoder

Every byte read by a successful field parse lies inside the consumed range,
so two buffers agreeing on that prefix parse identically (only the locktime,
read from the end of the slice, can differ).  These lemmas make that
precise. -/

theorem take_agree_slice {t t' : List Nat} {m a c : Nat}
    (hagree : t.take m = t'.take m) (hac : a + c ≤ m) :
    (t.drop a).take c = (t'.drop a).take c := by
  have key : ∀ u : List Nat, (u.drop a).take c = ((u.take m).drop a).take c := by
    intro u
    rw [List.drop_take, List.take_take]
    congr 1
    omega
  rw [key t, key t', hagree]

theorem decode_varint_pos {l : List Nat} {v c : Nat}
    (h : decode_varint l = some (v, c)) : 1 ≤ c := by
  cases l with
  | nil => simp [decode_varint] at h
  | cons b rest =>
    simp only [decode_varint] at h
    split_ifs at h <;> simp_all <;> omega

theorem decode_varint_agree {l l' : List Nat} {v c : Nat}
    (h : decode_varint l = some (v, c)) (hagree : l.take c = l'.take c) :
    decode_varint l' = some (v, c) := by
  cases l with
  | nil => simp [decode_varint] at h
  | cons b rest =>
    simp only [decode_varint] at h
    by_cases hb : 255 < b
    · rw [if_pos hb] at h; simp at h
    · rw [if_neg hb] at h
      by_cases hb2 : b < 253
      · rw [if_pos hb2] at h
        obtain ⟨rfl, rfl⟩ : b = v ∧ 1 = c := by simpa [eq_comm] using h
        cases l' with
        | nil => simp at hagree
        | cons b' rest' =>
          obtain rfl : b = b' := by simpa using hagree
          simp only [decode_varint]
          rw [if_neg hb, if_pos hb2]
      · rw [if_neg hb2] at h
        by_cases hb3 : b = 253
        · rw [if_pos hb3] at h
          split_ifs at h with hlen
          obtain ⟨rfl, rfl⟩ : leNat (rest.take 2) = v ∧ 3 = c := by
            simpa [eq_comm] using h
          cases l' with
          | nil => simp at hagree
          | cons b' rest' =>
            simp only [List.take_succ_cons, List.cons.injEq] at hagree
            obtain ⟨rfl, hrest⟩ := hagree
            have htake : rest'.take 2 = rest.take 2 := by
              have := congrArg (List.take 2) hrest
              rwa [List.take_take, List.take_take, eq_comm] at this
            simp only [decode_varint]
            rw [if_neg hb, if_neg hb2, if_pos hb3, htake, if_pos hlen]
        · by_cases hb4 : b = 254
          · rw [if_neg hb3, if_pos hb4] at h
            split_ifs at h with hlen
            obtain ⟨rfl, rfl⟩ : leNat (rest.take 4) = v ∧ 5 = c := by
              simpa [eq_comm] using h
            cases l' with
            | nil => simp at hagree
            | cons b' rest' =>
              simp only [List.take_succ_cons, List.cons.injEq] at hagree
              obtain ⟨rfl, hrest⟩ := hagree
              have htake : rest'.take 4 = rest.take 4 := by
                have := congrArg (List.take 4) hrest
                rwa [List.take_take, List.take_take, eq_comm] at this
              simp only [decode_varint]
              rw [if_neg hb, if_neg hb2, if_neg hb3, if_pos hb4, htake, if_pos hlen]
          · rw [if_neg hb3, if_neg hb4] at h
            split_ifs at h with hlen
            obtain ⟨rfl, rfl⟩ : leNat (rest.take 8) = v ∧ 9 = c := by
              simpa [eq_comm] using h
            cases l' with
            | nil => simp at hagree
            | cons b' rest' =>
              simp only [List.take_succ_cons, List.cons.injEq] at hagree
              obtain ⟨rfl, hrest⟩ := hagree
              have htake : rest'.take 8 = rest.take 8 := by
                have := congrArg (List.take 8) hrest
                rwa [List.take_take, List.take_take, eq_comm] at this
              simp only [decode_varint]
              rw [if_neg hb, if_neg hb2, if_neg hb3, if_neg hb4, htake, if_pos hlen]

/-- A varint read at position `a` inside a prefix on which two buffers agree
yields the same result on both. -/
theorem decode_varint_at_agree {t t' : List Nat} {m a v c : Nat}
    (hagree : t.take m = t'.take m) (h : decode_varint (t.drop a) = some (v, c))
    (hb : a + c ≤ m) :
    decode_varint (t'.drop a) = some (v, c) :=
  decode_varint_agree h (take_agree_slice hagree hb)

/-! ### Monotonicity of the loop offsets -/

theorem parse_inputs_mono {tx : List Nat} :
    ∀ {n off off' : Nat}, parse_inputs tx n off = some off' → off ≤ off' := by
  intro n
  induction n with
  | zero =>
    intro off off' h
    simp only [parse_inputs, Option.some.injEq] at h
    omega
  | succ n ih =>
    intro off off' h
    simp only [parse_inputs] at h
    cases hv : decode_varint ((tx.drop off).drop 36) with
    | none => rw [hv] at h; dsimp only at h; exact absurd h (by simp)
    | some p =>
      obtain ⟨sl, vl⟩ := p
      rw [hv] at h
      dsimp only at h
      have := ih h
      omega

theorem parse_outputs_mono {tx : List Nat} :
    ∀ {n off : Nat} {vals : List Nat} {res : List Nat × Nat},
      parse_outputs tx n off vals = some res → off ≤ res.2 := by
  intro n
  induction n with
  | zero =>
    intro off vals res h
    simp only [parse_outputs, Option.some.injEq] at h
    rw [← h]
  | succ n ih =>
    intro off vals res h
    simp only [parse_outputs] at h
    cases hv : decode_uint64 ((tx.drop off).take 8) with
    | none => rw [hv] at h; dsimp only at h; exact absurd h (by simp)
    | some value =>
      rw [hv] at h
      dsimp only at h
      cases hv2 : decode_varint ((tx.drop off).drop 8) with
      | none => rw [hv2] at h; dsimp only at h; exact absurd h (by simp)
      | some p =>
        obtain ⟨sl, vs⟩ := p
        rw [hv2] at h
        dsimp only at h
        have := ih h
        omega

theorem parse_witness_items_mono {tx : List Nat} :
    ∀ {n off off' : Nat}, parse_witness_items tx n off = some off' → off ≤ off' := by
  intro n
  induction n with
  | zero =>
    intro off off' h
    simp only [parse_witness_items, Option.some.injEq] at h
    omega
  | succ n ih =>
    intro off off' h
    simp only [parse_witness_items] at h
    cases hv : decode_varint (tx.drop off) with
    | none => rw [hv] at h; dsimp only at h; exact absurd h (by simp)
    | some p =>
      obtain ⟨cl, vs⟩ := p
      rw [hv] at h
      dsimp only at h
      have := ih h
      omega

theorem parse_witnesses_mono {tx : List Nat} :
    ∀ {n off off' : Nat}, parse_witnesses tx n off = some off' → off ≤ off' := by
  intro n
  induction n with
  | zero =>
    intro off off' h
    simp only [parse_witnesses, Option.some.injEq] at h
    omega
  | succ n ih =>
    intro off off' h
    simp only [parse_witnesses] at h
    cases hv : decode_varint (tx.drop off) with
    | none => rw [hv] at h; dsimp only at h; exact absurd h (by simp)
    | some p =>
      obtain ⟨wn, vs⟩ := p
      rw [hv] at h
      dsimp only at h
      cases hw : parse_witness_items tx wn (off + vs) with
      | none => rw [hw] at h; dsimp only at h; exact absurd h (by simp)
      | some off2 =>
        rw [hw] at h
        dsimp only at h
        have h1 := parse_witness_items_mono hw
        have h2 := ih h
        omega

/-! ### Agreement of the loops on a shared prefix -/

theorem parse_inputs_agree {tx tx' : List Nat} {m : Nat}
    (hagree : tx.take m = tx'.take m) :
    ∀ {n off off' : Nat}, parse_inputs tx n off = some off' → off' ≤ m →
      parse_inputs tx' n off = some off' := by
  intro n
  induction n with
  | zero =>
    intro off off' h _
    simpa only [parse_inputs] using h
  | succ n ih =>
    intro off off' h hm
    simp only [parse_inputs] at h ⊢
    cases hv : decode_varint ((tx.drop off).drop 36) with
    | none => rw [hv] at h; dsimp only at h; exact absurd h (by simp)
    | some p =>
      obtain ⟨sl, vl⟩ := p
      rw [hv] at h
      dsimp only at h
      have hmono := parse_inputs_mono h
      have hv' : decode_varint ((tx'.drop off).drop 36) = some (sl, vl) := by
        rw [List.drop_drop] at hv ⊢
        have hpos := decode_varint_pos hv
        exact decode_varint_at_agree hagree hv (by omega)
      rw [hv']
      dsimp only
      exact ih h hm

theorem parse_outputs_agree {tx tx' : List Nat} {m : Nat}
    (hagree : tx.take m = tx'.take m) :
    ∀ {n off : Nat} {vals : List Nat} {res : List Nat × Nat},
      parse_outputs tx n off vals = some res → res.2 ≤ m →
      parse_outputs tx' n off vals = some res := by
  intro n
  induction n with
  | zero =>
    intro off vals res h _
    simpa only [parse_outputs] using h
  | succ n ih =>
    intro off vals res h hm
    simp only [parse_outputs] at h ⊢
    cases hv : decode_uint64 ((tx.drop off).take 8) with
    | none => rw [hv] at h; dsimp only at h; exact absurd h (by simp)
    | some value =>
      rw [hv] at h
      dsimp only at h
      cases hv2 : decode_varint ((tx.drop off).drop 8) with
      | none => rw [hv2] at h; dsimp only at h; exact absurd h (by simp)
      | some p =>
        obtain ⟨sl, vs⟩ := p
        rw [hv2] at h
        dsimp only at h
        have hmono := parse_outputs_mono h
        have hpos := decode_varint_pos hv2
        have hv' : decode_uint64 ((tx'.drop off).take 8) = some value := by
          rw [take_agree_slice hagree (a := off) (c := 8) (by omega)] at hv
          exact hv
        have hv2' : decode_varint ((tx'.drop off).drop 8) = some (sl, vs) := by
          rw [List.drop_drop] at hv2 ⊢
          exact decode_varint_at_agree hagree hv2 (by omega)
        rw [hv', hv2']
        dsimp only
        exact ih h hm

theorem parse_witness_items_agree {tx tx' : List Nat} {m : Nat}
    (hagree : tx.take m = tx'.take m) :
    ∀ {n off off' : Nat}, parse_witness_items tx n off = some off' → off' ≤ m →
      parse_witness_items tx' n off = some off' := by
  intro n
  induction n with
  | zero =>
    intro off off' h _
    simpa only [parse_witness_items] using h
  | succ n ih =>
    intro off off' h hm
    simp only [parse_witness_items] at h ⊢
    cases hv : decode_varint (tx.drop off) with
    | none => rw [hv] at h; dsimp only at h; exact absurd h (by simp)
    | some p =>
      obtain ⟨cl, vs⟩ := p
      rw [hv] at h
      dsimp only at h
      have hmono := parse_witness_items_mono h
      have hv' : decode_varint (tx'.drop off) = some (cl, vs) :=
        decode_varint_at_agree hagree hv (by omega)
      rw [hv']
      dsimp only
      exact ih h hm

theorem parse_witnesses_agree {tx tx' : List Nat} {m : Nat}
    (hagree : tx.take m = tx'.take m) :
    ∀ {n off off' : Nat}, parse_witnesses tx n off = some off' → off' ≤ m →
      parse_witnesses tx' n off = some off' := by
  intro n
  induction n with
  | zero =>
    intro off off' h _
    simpa only [parse_witnesses] using h
  | succ n ih =>
    intro off off' h hm
    simp only [parse_witnesses] at h ⊢
    cases hv : decode_varint (tx.drop off) with
    | none => rw [hv] at h; dsimp only at h; exact absurd h (by simp)
    | some p =>
      obtain ⟨wn, vs⟩ := p
      rw [hv] at h
      dsimp only at h
      cases hw : parse_witness_items tx wn (off + vs) with
      | none => rw [hw] at h; dsimp only at h; exact absurd h (by simp)
      | some off2 =>
        rw [hw] at h
        dsimp only at h
        have h1 := parse_witness_items_mono hw
        have h2 := parse_witnesses_mono h
        have hv' : decode_varint (tx'.drop off) = some (wn, vs) :=
          decode_varint_at_agree hagree hv (by omega)
        have hw' : parse_witness_items tx' wn (off + vs) = some off2 :=
          parse_witness_items_agree hagree hw (by omega)
        rw [hv']
        dsimp only
        rw [hw']
        dsimp only
        exact ih h hm

/-- A successful field parse ends at least two varints past its start. -/
theorem parse_fields_rest_bound {tx : List Nat} {sw : Bool} {o0 : Nat}
    {res : Bool × Nat × Nat × List Nat × Option Nat × Nat}
    (h : parse_fields_rest tx sw o0 = some res) : o0 + 2 ≤ res.2.2.2.2.2 := by
  unfold parse_fields_rest at h
  cases hv1 : decode_varint (tx.drop o0) with
  | none => rw [hv1] at h; dsimp only at h; exact absurd h (by simp)
  | some p1 =>
    obtain ⟨ni, vs⟩ := p1
    rw [hv1] at h
    dsimp only at h
    cases h1 : parse_inputs tx ni (o0 + vs) with
    | none => rw [h1] at h; dsimp only at h; exact absurd h (by simp)
    | some o1 =>
      rw [h1] at h
      dsimp only at h
      cases hv2 : decode_varint (tx.drop o1) with
      | none => rw [hv2] at h; dsimp only at h; exact absurd h (by simp)
      | some p2 =>
        obtain ⟨no, vs2⟩ := p2
        rw [hv2] at h
        dsimp only at h
        cases h2 : parse_outputs tx no (o1 + vs2) [] with
        | none => rw [h2] at h; dsimp only at h; exact absurd h (by simp)
        | some p3 =>
          obtain ⟨vals, o2⟩ := p3
          rw [h2] at h
          dsimp only at h
          have hp1 := decode_varint_pos hv1
          have hp2 := decode_varint_pos hv2
          have hm1 := parse_inputs_mono h1
          have hm2 := parse_outputs_mono h2
          dsimp only at hm2
          cases sw with
          | false =>
            rw [if_neg (by simp)] at h
            obtain rfl : (false, ni, no, vals, none, o2) = res := by
              simpa using h
            dsimp only
            omega
          | true =>
            rw [if_pos rfl] at h
            cases hw : parse_witnesses tx ni o2 with
            | none => rw [hw] at h; dsimp only at h; exact absurd h (by simp)
            | some o3 =>
              rw [hw] at h
              dsimp only at h
              obtain rfl : (true, ni, no, vals, some o2, o3) = res := by
                simpa using h
              have hm3 := parse_witnesses_mono hw
              dsimp only
              omega

theorem parse_fields_rest_agree {tx tx' : List Nat} {m : Nat} {sw : Bool} {o0 : Nat}
    {res : Bool × Nat × Nat × List Nat × Option Nat × Nat}
    (hagree : tx.take m = tx'.take m)
    (h : parse_fields_rest tx sw o0 = some res) (hm : res.2.2.2.2.2 ≤ m) :
    parse_fields_rest tx' sw o0 = some res := by
  unfold parse_fields_rest at h ⊢
  cases hv1 : decode_varint (tx.drop o0) with
  | none => rw [hv1] at h; dsimp only at h; exact absurd h (by simp)
  | some p1 =>
    obtain ⟨ni, vs⟩ := p1
    rw [hv1] at h
    dsimp only at h
    cases h1 : parse_inputs tx ni (o0 + vs) with
    | none => rw [h1] at h; dsimp only at h; exact absurd h (by simp)
    | some o1 =>
      rw [h1] at h
      dsimp only at h
      cases hv2 : decode_varint (tx.drop o1) with
      | none => rw [hv2] at h; dsimp only at h; exact absurd h (by simp)
      | some p2 =>
        obtain ⟨no, vs2⟩ := p2
        rw [hv2] at h
        dsimp only at h
        cases h2 : parse_outputs tx no (o1 + vs2) [] with
        | none => rw [h2] at h; dsimp only at h; exact absurd h (by simp)
        | some p3 =>
          obtain ⟨vals, o2⟩ := p3
          rw [h2] at h
          dsimp only at h
          have hp1 := decode_varint_pos hv1
          have hp2 := decode_varint_pos hv2
          have hm1 := parse_inputs_mono h1
          have hm2 := parse_outputs_mono h2
          dsimp only at hm2
          cases sw with
          | false =>
            rw [if_neg (by simp)] at h
            obtain rfl : (false, ni, no, vals, none, o2) = res := by
              simpa using h
            dsimp only at hm
            have hv1' : decode_varint (tx'.drop o0) = some (ni, vs) :=
              decode_varint_at_agree hagree hv1 (by omega)
            have h1' : parse_inputs tx' ni (o0 + vs) = some o1 :=
              parse_inputs_agree hagree h1 (by omega)
            have hv2' : decode_varint (tx'.drop o1) = some (no, vs2) :=
              decode_varint_at_agree hagree hv2 (by omega)
            have h2' : parse_outputs tx' no (o1 + vs2) [] = some (vals, o2) :=
              parse_outputs_agree hagree h2 (by omega)
            rw [hv1']
            dsimp only
            rw [h1']
            dsimp only
            rw [hv2']
            dsimp only
            rw [h2']
            dsimp only
            rw [if_neg (by simp)]
          | true =>
            rw [if_pos rfl] at h
            cases hw : parse_witnesses tx ni o2 with
            | none => rw [hw] at h; dsimp only at h; exact absurd h (by simp)
            | some o3 =>
              rw [hw] at h
              dsimp only at h
              obtain rfl : (true, ni, no, vals, some o2, o3) = res := by
                simpa using h
              dsimp only at hm
              have hm3 := parse_witnesses_mono hw
              have hv1' : decode_varint (tx'.drop o0) = some (ni, vs) :=
                decode_varint_at_agree hagree hv1 (by omega)
              have h1' : parse_inputs tx' ni (o0 + vs) = some o1 :=
                parse_inputs_agree hagree h1 (by omega)
              have hv2' : decode_varint (tx'.drop o1) = some (no, vs2) :=
                decode_varint_at_agree hagree hv2 (by omega)
              have h2' : parse_outputs tx' no (o1 + vs2) [] = some (vals, o2) :=
                parse_outputs_agree hagree h2 (by omega)
              have hw' : parse_witnesses tx' ni o2 = some o3 :=
                parse_witnesses_agree hagree hw (by omega)
              rw [hv1']
              dsimp only
              rw [h1']
              dsimp only
              rw [hv2']
              dsimp only
              rw [h2']
              dsimp only
              rw [if_pos rfl, hw']

/-- A successful whole-field parse ends at offset at least 6. -/
theorem parse_fields_bound {tx : List Nat}
    {res : Bool × Nat × Nat × List Nat × Option Nat × Nat}
    (h : parse_fields tx = some res) : 6 ≤ res.2.2.2.2.2 := by
  unfold parse_fields at h
  split_ifs at h
  · have := parse_fields_rest_bound h
    omega
  · have := parse_fields_rest_bound h
    omega

theorem parse_fields_agree {tx tx' : List Nat} {m : Nat}
    {res : Bool × Nat × Nat × List Nat × Option Nat × Nat}
    (hagree : tx.take m = tx'.take m)
    (h : parse_fields tx = some res) (hm : res.2.2.2.2.2 ≤ m) (h6 : 6 ≤ m) :
    parse_fields tx' = some res := by
  unfold parse_fields at h ⊢
  have hmk : (tx'.drop 4).take 2 = (tx.drop 4).take 2 :=
    (take_agree_slice hagree (by omega)).symm
  by_cases hm2 : (tx.drop 4).take 2 = [0, 1]
  · rw [if_pos hm2] at h
    rw [hmk, if_pos hm2]
    exact parse_fields_rest_agree hagree h hm
  · rw [if_neg hm2] at h
    rw [hmk, if_neg hm2]
    exact parse_fields_rest_agree hagree h hm

/-- A successful decode attempt transfers to any other slice that agrees on
the consumed prefix and is at least that long; only the locktime (read from
the end of the slice) and the recorded byte range change. -/
theorem parse_slice_agree {tx tx' : List Nat} {r : ParsedTx} {ts0 : Option Nat}
    (h : parse_slice tx = (some r, ts0))
    (hagree : tx.take r.tx_size = tx'.take r.tx_size)
    (hlen : r.tx_size ≤ tx'.length) :
    parse_slice tx' =
      (some { r with
          locktime := leNat (tx'.drop (tx'.length - 4)),
          txBytes := tx'.take r.tx_size },
        some r.tx_size) := by
  obtain ⟨h4, hle, hbytes, hts, hver, hlk, hflds⟩ := parse_slice_elim h
  have hbound := parse_fields_bound hflds
  dsimp only at hbound
  have htake4 : tx'.take 4 = tx.take 4 := by
    have hc := congrArg (List.take 4) hagree
    rw [List.take_take, List.take_take] at hc
    have hmin : (4 : Nat) ⊓ r.tx_size = 4 := by omega
    rw [hmin] at hc
    exact hc.symm
  unfold parse_slice
  have hv32 : decode_uint32 (tx'.take 4) = some r.version := by
    unfold decode_uint32
    rw [if_pos (by rw [List.length_take]; omega)]
    rw [htake4, hver]
  rw [hv32]
  dsimp only
  have hv32' : decode_uint32 (tx'.drop (tx'.length - 4)) =
      some (leNat (tx'.drop (tx'.length - 4))) := by
    unfold decode_uint32
    rw [if_pos (by rw [List.length_drop]; omega)]
  rw [hv32']
  dsimp only
  have hflds' : parse_fields tx' = some (r.is_segwit, r.n_in, r.n_out, r.values,
      r.offset_before_tx_witnesses, r.tx_size - 4) :=
    parse_fields_agree hagree hflds (by dsimp only; omega) (by omega)
  rw [hflds']
  dsimp only
  rw [if_neg (by omega)]
  have hL4 : r.tx_size - 4 + 4 = r.tx_size := by omega
  rw [hL4]

/-- Decode attempts on nested slices of the same buffer that both succeed
consume the same number of bytes. -/
theorem parse_slice_shorter_size {t : List Nat} {w : Nat} {r r' : ParsedTx}
    {a b : Option Nat}
    (hfull : parse_slice t = (some r, a))
    (hshort : parse_slice (t.take w) = (some r', b)) :
    r'.tx_size = r.tx_size := by
  obtain ⟨-, hle, -, -, -, -, -⟩ := parse_slice_elim hshort
  rw [List.length_take] at hle
  have hagree : (t.take w).take r'.tx_size = t.take r'.tx_size := by
    rw [List.take_take]
    congr 1
    omega
  have hlen' : r'.tx_size ≤ t.length := by omega
  have htrans := parse_slice_agree hshort hagree hlen'
  rw [hfull] at htrans
  simp only [Prod.mk.injEq, Option.some.injEq] at htrans
  obtain ⟨hr, -⟩ := htrans
  rw [hr]

/-- The retry loop returns the first-width success once every narrower
attempt fails and some width within range covers the buffer. -/
theorem parse_retry_go_reaches {B2 : List Nat} {r' : ParsedTx}
    (hattempt : ∀ w, (B2.length ≤ w →
        parse_slice (B2.take w) = (some r', some r'.tx_size))
      ∧ (w < B2.length → (parse_slice (B2.take w)).1 = none)) :
    ∀ fuel j ts, (∃ jj, j ≤ jj ∧ jj < j + fuel ∧ B2.length ≤ 1024 * 2 ^ jj) →
      parse_retry_go B2 0 fuel j ts = (some r', r'.tx_size) := by
  intro fuel
  induction fuel with
  | zero =>
    rintro j ts ⟨jj, h1, h2, h3⟩
    omega
  | succ f ih =>
    rintro j ts ⟨jj, h1, h2, h3⟩
    rw [parse_retry_go]
    by_cases hw : B2.length ≤ 1024 * 2 ^ j
    · have hsucc := (hattempt (1024 * 2 ^ j)).1 hw
      unfold parse_attempt
      rw [List.drop_zero, hsucc]
    · push_neg at hw
      have hnone := (hattempt (1024 * 2 ^ j)).2 hw
      have hjj : j + 1 ≤ jj := by
        by_contra hc
        push_neg at hc
        have hpow : (2 : Nat) ^ jj ≤ 2 ^ j :=
          Nat.pow_le_pow_right (by norm_num) (by omega)
        omega
      unfold parse_attempt
      rw [List.drop_zero]
      rcases hq : parse_slice (B2.take (1024 * 2 ^ j)) with ⟨o, t⟩
      rw [hq] at hnone
      dsimp only at hnone
      subst hnone
      cases t with
      | some tv => exact ih (j + 1) tv ⟨jj, by omega, by omega, h3⟩
      | none => exact ih (j + 1) ts ⟨jj, by omega, by omega, h3⟩

/-- C6 (amended): re-slicing exactly the consumed byte range of a
successfully decoded transaction and decoding it again succeeds and
reproduces the version, witness flag, input count, output count, output
values, witness offset, consumed length and byte range identically; only
the reported locktime can differ, because the decoder reads it from the end
of its speculative slice — after re-slicing it equals the little-endian
value of the last 4 consumed bytes. -/
theorem roundtrip_decode_agrees (txs_data : List Nat) (block_offset : Nat)
    (r : ParsedTx)
    (h : (parse_tx_full txs_data block_offset).1 = some r) :
    ∃ r', (parse_tx_full ((txs_data.drop block_offset).take r.tx_size) 0).1 = some r'
      ∧ r'.version = r.version ∧ r'.is_segwit = r.is_segwit
      ∧ r'.n_in = r.n_in ∧ r'.n_out = r.n_out ∧ r'.values = r.values
      ∧ r'.offset_before_tx_witnesses = r.offset_before_tx_witnesses
      ∧ r'.tx_size = r.tx_size ∧ r'.txBytes = r.txBytes
      ∧ r'.locktime =
          leNat (((txs_data.drop block_offset).take r.tx_size).drop (r.tx_size - 4)) := by
  rcases hp : parse_tx_full txs_data block_offset with ⟨o, t⟩
  rw [hp] at h
  dsimp only at h
  subst h
  obtain ⟨-, jj0, hjj0, hps⟩ := parse_tx_full_success hp
  obtain ⟨h4, hle, hbytes, -, -, -, -⟩ := parse_slice_elim hps
  rw [List.length_take] at hle
  have hLw : r.tx_size ≤ 1024 * 2 ^ jj0 := by omega
  have hLS : r.tx_size ≤ (txs_data.drop block_offset).length := by omega
  have hB2len : ((txs_data.drop block_offset).take r.tx_size).length = r.tx_size := by
    rw [List.length_take]
    omega
  have horig : ((txs_data.drop block_offset).take (1024 * 2 ^ jj0)).take r.tx_size =
      (txs_data.drop block_offset).take r.tx_size := by
    rw [List.take_take]
    congr 1
    omega
  have hsucc : ∀ w, ((txs_data.drop block_offset).take r.tx_size).length ≤ w →
      parse_slice (((txs_data.drop block_offset).take r.tx_size).take w) =
        (some { r with
            locktime := leNat (((txs_data.drop block_offset).take r.tx_size).drop
              (r.tx_size - 4)),
            txBytes := (txs_data.drop block_offset).take r.tx_size },
          some r.tx_size) := by
    intro w hw
    rw [List.take_of_length_le hw]
    have hagree2 : ((txs_data.drop block_offset).take (1024 * 2 ^ jj0)).take r.tx_size =
        ((txs_data.drop block_offset).take r.tx_size).take r.tx_size := by
      rw [horig, List.take_of_length_le (le_of_eq hB2len)]
    have happ := parse_slice_agree hps hagree2 (le_of_eq hB2len.symm)
    rw [List.take_of_length_le (le_of_eq hB2len), hB2len] at happ
    exact happ
  have hfail : ∀ w, w < ((txs_data.drop block_offset).take r.tx_size).length →
      (parse_slice (((txs_data.drop block_offset).take r.tx_size).take w)).1 = none := by
    intro w hw
    rw [hB2len] at hw
    rcases hq : parse_slice (((txs_data.drop block_offset).take r.tx_size).take w)
      with ⟨o2, t2⟩
    cases o2 with
    | none => rfl
    | some rbad =>
      exfalso
      have heq : ((txs_data.drop block_offset).take r.tx_size).take w =
          ((txs_data.drop block_offset).take (1024 * 2 ^ jj0)).take w := by
        rw [List.take_take, List.take_take]
        congr 1
        omega
      rw [heq] at hq
      have hsize := parse_slice_shorter_size hps hq
      obtain ⟨-, hle2, -, -, -, -, -⟩ := parse_slice_elim hq
      rw [List.length_take, List.length_take] at hle2
      omega
  have hreach := parse_retry_go_reaches (fun w => ⟨hsucc w, hfail w⟩) 20 0 0
    ⟨jj0, by omega, by omega, by rw [hB2len]; exact hLw⟩
  refine ⟨{ r with
      locktime := leNat (((txs_data.drop block_offset).take r.tx_size).drop
        (r.tx_size - 4)),
      txBytes := (txs_data.drop block_offset).take r.tx_size },
    ?_, rfl, rfl, rfl, rfl, rfl, rfl, rfl, ?_, rfl⟩
  · show (parse_retry_go ((txs_data.drop block_offset).take r.tx_size) 0 20 0 0).1 =
      some _
    rw [hreach]
  · show (txs_data.drop block_offset).take r.tx_size = r.txBytes
    rw [hbytes, horig]

/-- The decode of `legacyTxPlusJunk` at offset 0, written out. -/
def sampleParsed : ParsedTx :=
  ⟨1, 4022250974, false, 1, 1, [100000], none, 60, legacyTxPlusJunk.take 60⟩

/-- Witness for C6 (amended) at the concrete buffer `legacyTxPlusJunk`. -/
theorem roundtrip_decode_agrees_witness :
    ((parse_tx_full legacyTxPlusJunk 0).1 = some sampleParsed)
    ∧ ∃ r', (parse_tx_full ((legacyTxPlusJunk.drop 0).take sampleParsed.tx_size) 0).1 =
          some r'
      ∧ r'.version = sampleParsed.version ∧ r'.is_segwit = sampleParsed.is_segwit
      ∧ r'.n_in = sampleParsed.n_in ∧ r'.n_out = sampleParsed.n_out
      ∧ r'.values = sampleParsed.values
      ∧ r'.offset_before_tx_witnesses = sampleParsed.offset_before_tx_witnesses
      ∧ r'.tx_size = sampleParsed.tx_size ∧ r'.txBytes = sampleParsed.txBytes
      ∧ r'.locktime =
          leNat (((legacyTxPlusJunk.drop 0).take sampleParsed.tx_size).drop
            (sampleParsed.tx_size - 4)) :=
  ⟨by decide, roundtrip_decode_agrees legacyTxPlusJunk 0 sampleParsed (by decide)⟩

end Jmfinder
